import Mathlib

/-!
A shallow embedding of `Content/Python/material_tools.py` (UtilityToolkit).

The script drives the Unreal editor's scripting API. We model every host
API call the script makes as an emitted `Effect`; a function of the script
becomes a Lean function returning the list of effects it performs, together
with an error flag for the Python exceptions the script itself can raise
(`IndexError` from `rsplit(...)[1]` on a malformed name). The asset
database touched by `create_empty_material` is modelled as explicit state.
-/

namespace MaterialTools

/-- Python `s.rsplit(sep, 1)` splits around the LAST occurrence of `sep`:
`splitAtLast sep l = some (before, after)` when `sep` occurs in `l`,
`none` otherwise. -/
def splitAtLast (sep : Char) : List Char → Option (List Char × List Char)
  | [] => none
  | c :: cs =>
    match splitAtLast sep cs with
    | some (l, r) => some (c :: l, r)
    | none => if c = sep then some ([], cs) else none

/-- Python `s.rsplit(sep, 1)`: a two-element list when `sep` occurs in `s`,
else the one-element list `[s]`. -/
def pyRsplit1 (sep : Char) (s : String) : List String :=
  match splitAtLast sep s.data with
  | some (l, r) => [String.mk l, String.mk r]
  | none => [s]

/-- Left-to-right scan for Python `str.replace`: while `skip > 0` the
character belongs to an occurrence already matched and is dropped; at
`skip = 0` a fresh occurrence of `key` starting here is dropped (its
remaining `key.length - 1` characters via the skip counter), any other
character is kept. -/
def replaceScan (key : List Char) : Nat → List Char → List Char
  | _ + 1, [] => []
  | skip + 1, _ :: cs => replaceScan key skip cs
  | 0, [] => []
  | 0, c :: cs =>
    if key ≠ [] ∧ key.isPrefixOf (c :: cs) then
      replaceScan key (key.length - 1) cs
    else
      c :: replaceScan key 0 cs

/-- Python `s.replace(key, '')`: removes every (non-overlapping, leftmost
first) occurrence of `key` from `s`. -/
def pyReplaceAll (key s : List Char) : List Char :=
  replaceScan key 0 s

/-- Material graph expression kinds created by the script
(`MaterialExpressionTextureSample`, `MaterialExpressionMultiply`). -/
inductive ExprKind
  | textureSample
  | multiply
deriving DecidableEq, Repr

/-- The `unreal.MaterialProperty` values used by the script. -/
inductive MaterialProperty
  | baseColor
  | opacity
  | ambientOcclusion
  | normal
  | metallic
  | roughness
  | specular
  | emissiveColor
deriving DecidableEq, Repr

/-- The `unreal.BlendMode` values used by the script. -/
inductive BlendMode
  | translucent
deriving DecidableEq, Repr

/-- The `unreal.MaterialSamplerType` values used by the script. -/
inductive SamplerType
  | masks
  | grayscale
  | normal
deriving DecidableEq, Repr

/-- A property value passed to `set_editor_property`. -/
inductive PropVal
  | blend (b : BlendMode)
  | samplerTy (s : SamplerType)
  | int (n : Int)
deriving DecidableEq, Repr

/-- The graph node an action's host call targets: the TextureSample node
created by `apply_texture` (the `expression` argument of `execute`), or the
Multiply node created by `CreateConnectionScaled`. -/
inductive Node
  | sampler
  | multiplyNode
deriving DecidableEq, Repr

/-- One host editor API call performed by the script. -/
inductive Effect
  | createExpr (kind : ExprKind) (x y : Int)
  | setTexture (name : String)
  | setExprProp (node : Node) (prop : String) (v : PropVal)
  | connectProperty (node : Node) (output : String) (mp : MaterialProperty)
  | connectExpressions (src : Node) (output : String) (dst : Node) (input : String)
  | setMaterialProp (prop : String) (v : PropVal)
  | recompile (mat : String)
  | saveAsset (path : String) (onlyIfDirty : Bool)
  | openEditor (paths : List String)
deriving DecidableEq, Repr

/-- The `Action` class hierarchy of the script: `CreateConnection`,
`CreateConnectionScaled`, `SetProperty`, `SetSamplerType`, each holding its
constructor parameters. -/
inductive Action
  | createConnection (output : String) (mp : MaterialProperty)
  | createConnectionScaled (output : String) (mp : MaterialProperty) (scale : Int)
  | setProperty (prop : String) (v : PropVal)
  | setSamplerType (st : SamplerType)
deriving DecidableEq, Repr

/-- `Action.execute(material, expression, y_pos)`: the host calls each
action variant performs, in source order. -/
def Action.execute : Action → Int → List Effect
  | .createConnection out mp, _ =>
      [.connectProperty .sampler out mp]
  | .createConnectionScaled out mp scale, y =>
      [.createExpr .multiply (-250) y,
       .setExprProp .multiplyNode "ConstB" (.int scale),
       .connectExpressions .sampler out .multiplyNode "A",
       .connectProperty .multiplyNode "" mp]
  | .setProperty p v, _ =>
      [.setMaterialProp p v]
  | .setSamplerType st, _ =>
      [.setExprProp .sampler "sampler_type" (.samplerTy st)]

/-- The `actions` dictionary of the script, as an association list in the
dictionary's insertion (= iteration) order. -/
def actions : List (String × List Action) :=
  [("DA", [.createConnection "RGB" .baseColor,
           .createConnection "A" .opacity,
           .setProperty "blend_mode" (.blend .translucent)]),
   ("D",  [.createConnection "RGB" .baseColor]),
   ("AO", [.createConnection "R" .ambientOcclusion,
           .setSamplerType .masks]),
   ("A",  [.createConnection "R" .opacity,
           .setSamplerType .grayscale,
           .setProperty "blend_mode" (.blend .translucent)]),
   ("N",  [.createConnection "RGB" .normal,
           .setSamplerType .normal]),
   ("M",  [.createConnection "R" .metallic,
           .setSamplerType .masks]),
   ("R",  [.createConnection "G" .roughness,
           .setSamplerType .masks]),
   ("S",  [.createConnection "B" .specular,
           .setSamplerType .masks]),
   ("E",  [.createConnectionScaled "RGB" .emissiveColor 15])]

/-- The `for key in actions` loop of `apply_texture`: for each key that is a
substring (Python `in`) of the working suffix, remove every occurrence of the
key from the working suffix and execute the key's actions. Returns the
emitted effects. -/
def matchTrace (y : Int) : List Char → List (String × List Action) → List Effect
  | _, [] => []
  | suf, (key, acts) :: rest =>
    if key.data <:+: suf then
      acts.flatMap (fun a => a.execute y) ++ matchTrace y (pyReplaceAll key.data suf) rest
    else
      matchTrace y suf rest

/-- The keys whose actions the `for key in actions` loop of `apply_texture`
fires, in iteration order, for a given starting suffix. -/
def matchedKeys : List Char → List (String × List Action) → List String
  | _, [] => []
  | suf, (key, _) :: rest =>
    if key.data <:+: suf then
      key :: matchedKeys (pyReplaceAll key.data suf) rest
    else
      matchedKeys suf rest

/-- `apply_texture(material, texture_name, y_pos)`: creates the
TextureSample node at `(-500, y_pos)`, assigns its texture, extracts the
suffix as `texture_name.rsplit('_', 1)[1]`, then runs the matching loop.
The `Bool` is `true` when the script raises `IndexError` (texture name with
no underscore); the effects performed before the exception are kept. -/
def apply_texture (texture_name : String) (y_pos : Int) : List Effect × Bool :=
  let pre : List Effect :=
    [.createExpr .textureSample (-500) y_pos, .setTexture texture_name]
  match pyRsplit1 '_' texture_name with
  | [_, suf] => (pre ++ matchTrace y_pos suf.data actions, false)
  | _ => (pre, true)

/-- The editor's asset database, modelled as the list of package paths at
which an asset currently exists. -/
structure AssetDB where
  assets : List String
deriving DecidableEq, Repr

/-- Modelled from the spec: the host call
`asset_tools.create_unique_asset_name(name, '')` is not part of this
repository. The spec calls its result "the computed unique path", so it is
modelled as a pure function of the requested name: the package name is the
name itself and the asset name is the part after the last `/`. -/
def create_unique_asset_name (name : String) : String × String :=
  match pyRsplit1 '/' name with
  | [_, asset_name] => (name, asset_name)
  | _ => (name, name)

/-- `unreal.EditorAssetLibrary.does_asset_exist(path)` on the modelled
database. -/
def does_asset_exist (db : AssetDB) (path : String) : Bool :=
  db.assets.contains path

/-- Modelled from the spec: the host call
`asset_tools.create_asset(name, path, unreal.Material, factory)` is not part
of this repository; it creates an asset at `path/name` and returns it.
Assets are identified by their package path. -/
def create_asset (nm path : String) (db : AssetDB) : String × AssetDB :=
  (path ++ "/" ++ nm, ⟨(path ++ "/" ++ nm) :: db.assets⟩)

/-- `create_empty_material(name)`: computes the unique package name, then
either creates a material there (when no asset exists at it) or loads the
existing asset. `none` models the `IndexError` raised by
`package_name.rsplit('/', 1)[1]` when the package name has no slash.
Returns the material's package path and the updated database. -/
def create_empty_material (name : String) (db : AssetDB) :
    Option (String × AssetDB) :=
  let package_name := (create_unique_asset_name name).fst
  if ¬ does_asset_exist db package_name then
    match pyRsplit1 '/' package_name with
    | [path, nm] => some (create_asset nm path db)
    | _ => none
  else
    some (package_name, db)

/-- A selected asset as `create_material_from_textures` sees it: its path
(`asset.get_path_name()`) and whether it is an `unreal.Texture` instance. -/
structure SelAsset where
  path : String
  isTexture : Bool
deriving DecidableEq, Repr

/-- The `for asset in selected_assets` loop of
`create_material_from_textures`: each `unreal.Texture` instance is applied
via `apply_texture` at the current `y_pos`, which then advances by 250;
other assets are skipped. The `Bool` is `true` when an `apply_texture` call
raised, which aborts the loop. -/
def applyLoop : List SelAsset → Int → List Effect × Bool
  | [], _ => ([], false)
  | a :: rest, y =>
    if a.isTexture then
      match apply_texture a.path y with
      | (tr, true) => (tr, true)
      | (tr, false) =>
        match applyLoop rest (y + 250) with
        | (tr2, err2) => (tr ++ tr2, err2)
    else
      applyLoop rest y

/-- `create_material_from_textures(name)`: creates/loads the material,
applies every selected texture starting at `y_pos = 0`, then recompiles the
material, saves it (`save_asset(path, True)`), and opens the editor for it.
A raised exception (`Bool` result `true`) aborts the remaining steps. -/
def create_material_from_textures (name : String) (selected : List SelAsset)
    (db : AssetDB) : List Effect × Bool × AssetDB :=
  match create_empty_material name db with
  | none => ([], true, db)
  | some (mat, db2) =>
    match applyLoop selected 0 with
    | (tr, true) => (tr, true, db2)
    | (tr, false) =>
      (tr ++ [.recompile mat, .saveAsset mat true, .openEditor [mat]],
       false, db2)

/-- The TextureSample creation effects of a trace. -/
def samplerCreations (tr : List Effect) : List Effect :=
  tr.filter fun e =>
    match e with
    | .createExpr .textureSample _ _ => true
    | _ => false

/-- The texture assignment effects of a trace. -/
def textureAssignments (tr : List Effect) : List Effect :=
  tr.filter fun e =>
    match e with
    | .setTexture _ => true
    | _ => false

/-- The finalisation effects (recompile / save / open editor) of a trace. -/
def finalizers (tr : List Effect) : List Effect :=
  tr.filter fun e =>
    match e with
    | .recompile _ => true
    | .saveAsset _ _ => true
    | .openEditor _ => true
    | _ => false

/-! ### Helper lemmas -/

theorem splitAtLast_eq_none_iff (sep : Char) :
    ∀ l : List Char, splitAtLast sep l = none ↔ sep ∉ l := by
  intro l
  induction l with
  | nil => simp [splitAtLast]
  | cons c cs ih =>
    simp only [splitAtLast, List.mem_cons]
    cases h : splitAtLast sep cs with
    | some p =>
      obtain ⟨l2, r2⟩ := p
      have hmem : sep ∈ cs := by
        by_contra hn
        rw [ih.mpr hn] at h
        exact Option.noConfusion h
      simp [hmem]
    | none =>
      have hcs : sep ∉ cs := ih.mp h
      by_cases hc : c = sep
      · simp [hc]
      · simp [hc, hcs, Ne.symm hc]

theorem splitAtLast_eq_some (sep : Char) :
    ∀ (l a b : List Char), splitAtLast sep l = some (a, b) → l = a ++ sep :: b := by
  intro l
  induction l with
  | nil => intro a b h; exact Option.noConfusion h
  | cons c cs ih =>
    intro a b h
    simp only [splitAtLast] at h
    cases h2 : splitAtLast sep cs with
    | some p =>
      obtain ⟨l2, r2⟩ := p
      rw [h2] at h
      simp only [Option.some.injEq, Prod.mk.injEq] at h
      obtain ⟨ha, hb⟩ := h
      subst ha
      subst hb
      have := ih l2 r2 h2
      rw [List.cons_append, ← this]
    | none =>
      rw [h2] at h
      by_cases hc : c = sep
      · rw [if_pos hc] at h
        simp only [Option.some.injEq, Prod.mk.injEq] at h
        obtain ⟨ha, hb⟩ := h
        subst ha
        subst hb
        simp [hc]
      · rw [if_neg hc] at h
        exact Option.noConfusion h

/-- Shape of `pyRsplit1`: one element exactly when the separator is absent,
else two parts that recompose to the original string. -/
theorem pyRsplit1_cases (sep : Char) (s : String) :
    (pyRsplit1 sep s = [s] ∧ sep ∉ s.data) ∨
    (∃ a b : List Char, pyRsplit1 sep s = [String.mk a, String.mk b] ∧
      s.data = a ++ sep :: b) := by
  unfold pyRsplit1
  cases h : splitAtLast sep s.data with
  | none => exact Or.inl ⟨rfl, (splitAtLast_eq_none_iff sep s.data).mp h⟩
  | some p =>
    obtain ⟨a, b⟩ := p
    exact Or.inr ⟨a, b, rfl, splitAtLast_eq_some sep s.data a b h⟩

theorem matchedKeys_sublist :
    ∀ (table : List (String × List Action)) (suf : List Char),
      List.Sublist (matchedKeys suf table) (table.map Prod.fst) := by
  intro table
  induction table with
  | nil => intro suf; simp [matchedKeys]
  | cons p rest ih =>
    intro suf
    obtain ⟨k, acts⟩ := p
    simp only [matchedKeys, List.map_cons]
    split
    · exact (ih _).cons₂ k
    · exact (ih _).cons k

theorem matched_actions_infix (y : Int) :
    ∀ (table : List (String × List Action)) (suf : List Char)
      (key : String) (acts : List Action),
      (table.map Prod.fst).Nodup → (key, acts) ∈ table →
      key ∈ matchedKeys suf table →
      (acts.flatMap fun a => a.execute y) <:+: matchTrace y suf table := by
  intro table
  induction table with
  | nil => intro suf key acts _ hmem _; cases hmem
  | cons p rest ih =>
    intro suf key acts hnd hmem hkey
    obtain ⟨k, a0⟩ := p
    simp only [List.map_cons, List.nodup_cons] at hnd
    obtain ⟨hknotin, hndrest⟩ := hnd
    simp only [matchedKeys, matchTrace] at hkey ⊢
    by_cases hm : k.data <:+: suf
    · rw [if_pos hm] at hkey ⊢
      rcases List.mem_cons.mp hkey with hkk | hkrest
      · subst hkk
        rcases List.mem_cons.mp hmem with heq | hrest
        · injection heq with h1 h2
          subst h2
          exact (List.prefix_append _ _).isInfix
        · exact absurd (List.mem_map.mpr ⟨(key, acts), hrest, rfl⟩) hknotin
      · have hkeyin : key ∈ rest.map Prod.fst :=
          (matchedKeys_sublist rest _).subset hkrest
        rcases List.mem_cons.mp hmem with heq | hrest
        · have hkk : key = k := by injection heq with h1 _
          subst hkk
          exact absurd hkeyin hknotin
        · exact (ih _ key acts hndrest hrest hkrest).trans
            ((List.suffix_append _ _).isInfix)
    · rw [if_neg hm] at hkey ⊢
      rcases List.mem_cons.mp hmem with heq | hrest
      · have hkk : key = k := by injection heq with h1 _
        subst hkk
        exact absurd ((matchedKeys_sublist rest _).subset hkey) hknotin
      · exact ih _ key acts hndrest hrest hkey

theorem matchTrace_eq_nil_of_no_match (y : Int) :
    ∀ (table : List (String × List Action)) (suf : List Char),
      matchedKeys suf table = [] → matchTrace y suf table = [] := by
  intro table
  induction table with
  | nil => intro suf _; rfl
  | cons p rest ih =>
    intro suf h
    obtain ⟨k, a0⟩ := p
    simp only [matchedKeys] at h
    simp only [matchTrace]
    by_cases hm : k.data <:+: suf
    · rw [if_pos hm] at h; cases h
    · rw [if_neg hm] at h ⊢
      exact ih suf h

theorem samplerCreations_append (l r : List Effect) :
    samplerCreations (l ++ r) = samplerCreations l ++ samplerCreations r := by
  simp [samplerCreations, List.filter_append]

theorem textureAssignments_append (l r : List Effect) :
    textureAssignments (l ++ r) = textureAssignments l ++ textureAssignments r := by
  simp [textureAssignments, List.filter_append]

theorem finalizers_append (l r : List Effect) :
    finalizers (l ++ r) = finalizers l ++ finalizers r := by
  simp [finalizers, List.filter_append]

theorem samplerCreations_execute (a : Action) (y : Int) :
    samplerCreations (a.execute y) = [] := by
  cases a <;> rfl

theorem textureAssignments_execute (a : Action) (y : Int) :
    textureAssignments (a.execute y) = [] := by
  cases a <;> rfl

theorem finalizers_execute (a : Action) (y : Int) :
    finalizers (a.execute y) = [] := by
  cases a <;> rfl

theorem samplerCreations_flatMap (y : Int) (acts : List Action) :
    samplerCreations (acts.flatMap fun a => a.execute y) = [] := by
  induction acts with
  | nil => rfl
  | cons a rest ih =>
    rw [List.flatMap_cons, samplerCreations_append, samplerCreations_execute, ih]
    rfl

theorem textureAssignments_flatMap (y : Int) (acts : List Action) :
    textureAssignments (acts.flatMap fun a => a.execute y) = [] := by
  induction acts with
  | nil => rfl
  | cons a rest ih =>
    rw [List.flatMap_cons, textureAssignments_append, textureAssignments_execute, ih]
    rfl

theorem finalizers_flatMap (y : Int) (acts : List Action) :
    finalizers (acts.flatMap fun a => a.execute y) = [] := by
  induction acts with
  | nil => rfl
  | cons a rest ih =>
    rw [List.flatMap_cons, finalizers_append, finalizers_execute, ih]
    rfl

theorem samplerCreations_matchTrace (y : Int) :
    ∀ (table : List (String × List Action)) (suf : List Char),
      samplerCreations (matchTrace y suf table) = [] := by
  intro table
  induction table with
  | nil => intro suf; rfl
  | cons p rest ih =>
    intro suf
    obtain ⟨k, acts⟩ := p
    simp only [matchTrace]
    split
    · rw [samplerCreations_append, samplerCreations_flatMap, ih]; rfl
    · exact ih suf

theorem textureAssignments_matchTrace (y : Int) :
    ∀ (table : List (String × List Action)) (suf : List Char),
      textureAssignments (matchTrace y suf table) = [] := by
  intro table
  induction table with
  | nil => intro suf; rfl
  | cons p rest ih =>
    intro suf
    obtain ⟨k, acts⟩ := p
    simp only [matchTrace]
    split
    · rw [textureAssignments_append, textureAssignments_flatMap, ih]; rfl
    · exact ih suf

theorem finalizers_matchTrace (y : Int) :
    ∀ (table : List (String × List Action)) (suf : List Char),
      finalizers (matchTrace y suf table) = [] := by
  intro table
  induction table with
  | nil => intro suf; rfl
  | cons p rest ih =>
    intro suf
    obtain ⟨k, acts⟩ := p
    simp only [matchTrace]
    split
    · rw [finalizers_append, finalizers_flatMap, ih]; rfl
    · exact ih suf

/-- `apply_texture` raises (`IndexError`) exactly when the texture name has
no underscore. -/
theorem apply_texture_err_iff (name : String) (y : Int) :
    (apply_texture name y).snd = true ↔ '_' ∉ name.data := by
  rcases pyRsplit1_cases '_' name with ⟨h, hmem⟩ | ⟨a, b, h, hdata⟩
  · simp [apply_texture, h, hmem]
  · simp [apply_texture, h, hdata]

/-- Whatever the suffix, every `apply_texture` call creates exactly one
TextureSample node, at `(-500, y_pos)`. -/
theorem apply_texture_samplers (name : String) (y : Int) :
    samplerCreations (apply_texture name y).fst =
      [.createExpr .textureSample (-500) y] := by
  rcases pyRsplit1_cases '_' name with ⟨h, _⟩ | ⟨a, b, h, _⟩
  · simp [apply_texture, h, samplerCreations]
  · simp only [apply_texture, h]
    rw [samplerCreations_append, samplerCreations_matchTrace]
    rfl

/-- Every `apply_texture` call assigns exactly one texture: the named one. -/
theorem apply_texture_assignments (name : String) (y : Int) :
    textureAssignments (apply_texture name y).fst = [.setTexture name] := by
  rcases pyRsplit1_cases '_' name with ⟨h, _⟩ | ⟨a, b, h, _⟩
  · simp [apply_texture, h, textureAssignments]
  · simp only [apply_texture, h]
    rw [textureAssignments_append, textureAssignments_matchTrace]
    rfl

/-- `apply_texture` performs no recompile / save / open-editor call. -/
theorem apply_texture_finalizers (name : String) (y : Int) :
    finalizers (apply_texture name y).fst = [] := by
  rcases pyRsplit1_cases '_' name with ⟨h, _⟩ | ⟨a, b, h, _⟩
  · simp [apply_texture, h, finalizers]
  · simp only [apply_texture, h]
    rw [finalizers_append, finalizers_matchTrace]
    rfl

theorem apply_texture_no_err (name : String) (y : Int) (h : '_' ∈ name.data) :
    (apply_texture name y).snd = false := by
  cases h2 : (apply_texture name y).snd
  · rfl
  · exact absurd h ((apply_texture_err_iff name y).mp h2)

theorem applyLoop_cons_skip (a : SelAsset) (rest : List SelAsset) (y : Int)
    (ht : a.isTexture = false) :
    applyLoop (a :: rest) y = applyLoop rest y := by
  simp [applyLoop, ht]

theorem applyLoop_cons_texture (a : SelAsset) (rest : List SelAsset) (y : Int)
    (ht : a.isTexture = true) (herr : (apply_texture a.path y).snd = false) :
    applyLoop (a :: rest) y =
      ((apply_texture a.path y).fst ++ (applyLoop rest (y + 250)).fst,
       (applyLoop rest (y + 250)).snd) := by
  rcases happ : apply_texture a.path y with ⟨tr, err⟩
  rw [happ] at herr
  simp only at herr
  subst herr
  rcases hloop : applyLoop rest (y + 250) with ⟨tr2, err2⟩
  simp [applyLoop, ht, happ, hloop]

theorem applyLoop_cons_texture_err (a : SelAsset) (rest : List SelAsset) (y : Int)
    (ht : a.isTexture = true) (herr : (apply_texture a.path y).snd = true) :
    applyLoop (a :: rest) y = ((apply_texture a.path y).fst, true) := by
  rcases happ : apply_texture a.path y with ⟨tr, err⟩
  rw [happ] at herr
  simp only at herr
  subst herr
  simp [applyLoop, ht, happ]

theorem applyLoop_no_error :
    ∀ (sel : List SelAsset),
      (∀ a ∈ sel, a.isTexture = true → '_' ∈ a.path.data) →
      ∀ y : Int, (applyLoop sel y).snd = false := by
  intro sel
  induction sel with
  | nil => intro _ y; rfl
  | cons a rest ih =>
    intro hok y
    have hokrest : ∀ x ∈ rest, x.isTexture = true → '_' ∈ x.path.data :=
      fun x hx => hok x (List.mem_cons_of_mem a hx)
    cases ht : a.isTexture with
    | false => rw [applyLoop_cons_skip a rest y ht]; exact ih hokrest y
    | true =>
      have herr := apply_texture_no_err a.path y (hok a (List.mem_cons_self a rest) ht)
      rw [applyLoop_cons_texture a rest y ht herr]
      exact ih hokrest (y + 250)

theorem finalizers_applyLoop :
    ∀ (sel : List SelAsset) (y : Int), finalizers (applyLoop sel y).fst = [] := by
  intro sel
  induction sel with
  | nil => intro y; rfl
  | cons a rest ih =>
    intro y
    cases ht : a.isTexture with
    | false => rw [applyLoop_cons_skip a rest y ht]; exact ih y
    | true =>
      cases herr : (apply_texture a.path y).snd with
      | true =>
        rw [applyLoop_cons_texture_err a rest y ht herr]
        exact apply_texture_finalizers a.path y
      | false =>
        rw [applyLoop_cons_texture a rest y ht herr]
        simp only [finalizers_append, apply_texture_finalizers, ih (y + 250),
          List.append_nil]

theorem applyLoop_samplers :
    ∀ (sel : List SelAsset),
      (∀ a ∈ sel, a.isTexture = true → '_' ∈ a.path.data) →
      ∀ y : Int,
        samplerCreations (applyLoop sel y).fst =
          (List.range (sel.filter fun a => a.isTexture).length).map
            (fun i : Nat => Effect.createExpr .textureSample (-500) (y + 250 * (i : Int))) := by
  intro sel
  induction sel with
  | nil => intro _ y; rfl
  | cons a rest ih =>
    intro hok y
    have hokrest : ∀ x ∈ rest, x.isTexture = true → '_' ∈ x.path.data :=
      fun x hx => hok x (List.mem_cons_of_mem a hx)
    cases ht : a.isTexture with
    | false =>
      rw [applyLoop_cons_skip a rest y ht, List.filter_cons_of_neg (by simp [ht])]
      exact ih hokrest y
    | true =>
      have herr := apply_texture_no_err a.path y (hok a (List.mem_cons_self a rest) ht)
      rw [applyLoop_cons_texture a rest y ht herr]
      have hfil : List.filter (fun x => x.isTexture) (a :: rest) =
          a :: List.filter (fun x => x.isTexture) rest := by
        simp [List.filter_cons, ht]
      rw [samplerCreations_append, apply_texture_samplers, ih hokrest (y + 250), hfil,
        List.length_cons, List.range_succ_eq_map, List.map_cons, List.map_map,
        List.singleton_append]
      congr 1
      · simp
      · apply List.map_congr_left
        intro i _
        simp only [Function.comp_apply, Effect.createExpr.injEq, true_and]
        push_cast
        ring

theorem applyLoop_assignments :
    ∀ (sel : List SelAsset),
      (∀ a ∈ sel, a.isTexture = true → '_' ∈ a.path.data) →
      ∀ y : Int,
        textureAssignments (applyLoop sel y).fst =
          (sel.filter fun a => a.isTexture).map (fun a => Effect.setTexture a.path) := by
  intro sel
  induction sel with
  | nil => intro _ y; rfl
  | cons a rest ih =>
    intro hok y
    have hokrest : ∀ x ∈ rest, x.isTexture = true → '_' ∈ x.path.data :=
      fun x hx => hok x (List.mem_cons_of_mem a hx)
    cases ht : a.isTexture with
    | false =>
      rw [applyLoop_cons_skip a rest y ht, List.filter_cons_of_neg (by simp [ht])]
      exact ih hokrest y
    | true =>
      have herr := apply_texture_no_err a.path y (hok a (List.mem_cons_self a rest) ht)
      rw [applyLoop_cons_texture a rest y ht herr]
      have hfil : List.filter (fun x => x.isTexture) (a :: rest) =
          a :: List.filter (fun x => x.isTexture) rest := by
        simp [List.filter_cons, ht]
      rw [textureAssignments_append, apply_texture_assignments, ih hokrest (y + 250),
        hfil, List.map_cons, List.singleton_append]

theorem applyLoop_filter_textures :
    ∀ (sel : List SelAsset) (y : Int),
      applyLoop sel y = applyLoop (sel.filter fun x => x.isTexture) y := by
  intro sel
  induction sel with
  | nil => intro y; rfl
  | cons a rest ih =>
    intro y
    cases ht : a.isTexture with
    | false =>
      rw [applyLoop_cons_skip a rest y ht, List.filter_cons_of_neg (by simp [ht])]
      exact ih y
    | true =>
      rw [List.filter_cons_of_pos (by simp [ht])]
      rcases happ : apply_texture a.path y with ⟨tr, err⟩
      cases err with
      | true =>
        rw [applyLoop_cons_texture_err a rest y ht (by rw [happ]),
            applyLoop_cons_texture_err a _ y ht (by rw [happ])]
      | false =>
        rw [applyLoop_cons_texture a rest y ht (by rw [happ]),
            applyLoop_cons_texture a _ y ht (by rw [happ]), ih (y + 250)]

/-- `create_empty_material` when an asset already exists at the computed
path: returns it, database untouched. -/
theorem create_empty_material_loads (name : String) (db : AssetDB)
    (hex : does_asset_exist db (create_unique_asset_name name).fst = true) :
    create_empty_material name db = some ((create_unique_asset_name name).fst, db) := by
  simp [create_empty_material, hex]

/-- `create_empty_material` when no asset exists at the computed path and
the path is slash-separated: creates the material there. -/
theorem create_empty_material_creates (name : String) (db : AssetDB)
    (hne : does_asset_exist db (create_unique_asset_name name).fst = false)
    (hslash : '/' ∈ (create_unique_asset_name name).fst.data) :
    create_empty_material name db =
      some ((create_unique_asset_name name).fst,
            ⟨(create_unique_asset_name name).fst :: db.assets⟩) := by
  rcases pyRsplit1_cases '/' (create_unique_asset_name name).fst with ⟨h, hmem⟩ | ⟨a, b, h, hdata⟩
  · exact absurd hslash hmem
  · have hrecomp : String.mk a ++ "/" ++ String.mk b = (create_unique_asset_name name).fst := by
      have hd : (String.mk a ++ "/" ++ String.mk b).data = a ++ '/' :: b := by
        show (a ++ ['/']) ++ b = a ++ '/' :: b
        simp
      have : (String.mk a ++ "/" ++ String.mk b).data = (create_unique_asset_name name).fst.data := by
        rw [hd, ← hdata]
      calc String.mk a ++ "/" ++ String.mk b
          = String.mk (String.mk a ++ "/" ++ String.mk b).data := rfl
        _ = String.mk (create_unique_asset_name name).fst.data := by rw [this]
        _ = (create_unique_asset_name name).fst := rfl
    simp only [create_empty_material, hne, Bool.false_eq_true, not_false_iff, if_pos, h,
      create_asset, hrecomp]

/-! ### Claims -/

/-- C1, counterexample to the claim as stated: for
`apply_texture(material, "T_X_DA", 0)` the suffix is `"DA"`; the actions
table key `"A"` is a substring of that suffix, yet the actions registered
under `"A"` are not executed (they appear nowhere in the call's trace),
because the earlier key `"DA"` matched and its characters were removed from
the working suffix. -/
theorem C1_counterexample :
    (("A", [Action.createConnection "R" .opacity,
            .setSamplerType .grayscale,
            .setProperty "blend_mode" (.blend .translucent)]) ∈ actions) ∧
    ("A".data <:+: "DA".data) ∧
    pyRsplit1 '_' "T_X_DA" = ["T_X", "DA"] ∧
    ¬ (([Action.createConnection "R" .opacity,
         .setSamplerType .grayscale,
         .setProperty "blend_mode" (.blend .translucent)].flatMap
          fun a => a.execute 0) <:+: (apply_texture "T_X_DA" 0).fst) := by
  decide

/-- C1, amended: in `apply_texture(material, texture_name, y_pos)` with
`texture_name` containing an underscore, the suffix is the text after the
last underscore; every actions-table key that the loop matches — i.e. every
key in `matchedKeys`, which tests each key against the working suffix from
which all earlier matched keys' occurrences have been removed — has all the
actions registered under it executed contiguously within the call's trace,
keys being processed in table iteration order. -/
theorem C1_matched_key_actions_executed (name pre suf : String) (y : Int)
    (key : String) (acts : List Action)
    (hsplit : pyRsplit1 '_' name = [pre, suf])
    (hmem : (key, acts) ∈ actions)
    (hkey : key ∈ matchedKeys suf.data actions) :
    (acts.flatMap fun a => a.execute y) <:+: (apply_texture name y).fst := by
  have hnd : (actions.map Prod.fst).Nodup := by decide
  have h := matched_actions_infix y actions suf.data key acts hnd hmem hkey
  simp only [apply_texture, hsplit]
  exact h.trans ((List.suffix_append _ _).isInfix)

/-- C1, witness: the key `"DA"` matches the suffix of `"T_X_DA"` and its
actions all appear in the trace. -/
theorem C1_witness :
    pyRsplit1 '_' "T_X_DA" = ["T_X", "DA"] ∧
    (("DA", [Action.createConnection "RGB" .baseColor,
             .createConnection "A" .opacity,
             .setProperty "blend_mode" (.blend .translucent)]) ∈ actions) ∧
    "DA" ∈ matchedKeys "DA".data actions ∧
    (([Action.createConnection "RGB" .baseColor,
       .createConnection "A" .opacity,
       .setProperty "blend_mode" (.blend .translucent)].flatMap
        fun a => a.execute 0) <:+: (apply_texture "T_X_DA" 0).fst) :=
  ⟨by decide, by decide, by decide,
   C1_matched_key_actions_executed "T_X_DA" "T_X" "DA" 0 "DA" _
     (by decide) (by decide) (by decide)⟩

/-- C2: `create_empty_material(name)` returns the existing asset at the
computed unique path unchanged when one exists, otherwise creates a new
material asset at that path; a second call with the same name returns the
same asset and leaves the database unchanged. (The host's
`create_unique_asset_name` and `create_asset` are modelled from the spec;
the computed path is assumed slash-separated, as host package paths are.) -/
theorem C2_create_empty_material_idempotent (name : String) (db : AssetDB)
    (hslash : '/' ∈ (create_unique_asset_name name).fst.data) :
    (does_asset_exist db (create_unique_asset_name name).fst = true →
      create_empty_material name db =
        some ((create_unique_asset_name name).fst, db)) ∧
    (does_asset_exist db (create_unique_asset_name name).fst = false →
      create_empty_material name db =
        some ((create_unique_asset_name name).fst,
              ⟨(create_unique_asset_name name).fst :: db.assets⟩)) ∧
    (∀ mat db2, create_empty_material name db = some (mat, db2) →
      create_empty_material name db2 = some (mat, db2)) := by
  refine ⟨create_empty_material_loads name db,
    fun hne => create_empty_material_creates name db hne hslash, ?_⟩
  intro mat db2 hcall
  cases hex : does_asset_exist db (create_unique_asset_name name).fst with
  | true =>
    rw [create_empty_material_loads name db hex] at hcall
    simp only [Option.some.injEq, Prod.mk.injEq] at hcall
    obtain ⟨hm, hd⟩ := hcall
    subst hm
    subst hd
    exact create_empty_material_loads name db hex
  | false =>
    rw [create_empty_material_creates name db hex hslash] at hcall
    simp only [Option.some.injEq, Prod.mk.injEq] at hcall
    obtain ⟨hm, hd⟩ := hcall
    subst hm
    subst hd
    apply create_empty_material_loads
    simp [does_asset_exist]

/-- C2, witness: creating `/Game/Mat` in an empty database, then calling
again, returns the same asset without creating another. -/
theorem C2_witness :
    ('/' ∈ (create_unique_asset_name "/Game/Mat").fst.data) ∧
    does_asset_exist (⟨[]⟩ : AssetDB) (create_unique_asset_name "/Game/Mat").fst = false ∧
    create_empty_material "/Game/Mat" ⟨[]⟩ =
      some ((create_unique_asset_name "/Game/Mat").fst,
            ⟨[(create_unique_asset_name "/Game/Mat").fst]⟩) ∧
    create_empty_material "/Game/Mat" ⟨[(create_unique_asset_name "/Game/Mat").fst]⟩ =
      some ((create_unique_asset_name "/Game/Mat").fst,
            ⟨[(create_unique_asset_name "/Game/Mat").fst]⟩) := by
  have h := C2_create_empty_material_idempotent "/Game/Mat" ⟨[]⟩ (by decide)
  exact ⟨by decide, by decide, h.2.1 (by decide), h.2.2 _ _ (h.2.1 (by decide))⟩

/-- C3: `apply_texture` raises its malformed-name failure (the `IndexError`
from `texture_name.rsplit('_', 1)[1]`) exactly when `texture_name` contains
no underscore; with at least one underscore, suffix extraction succeeds. -/
theorem C3_fails_iff_no_underscore (name : String) (y : Int) :
    (apply_texture name y).snd = true ↔ '_' ∉ name.data :=
  apply_texture_err_iff name y

/-- C4: in `create_material_from_textures`, counting only the selected
assets that are textures, the i-th texture (0-indexed) has its
TextureSample node created at vertical offset `250 * i`, starting from 0,
and the textures are assigned in selection order. -/
theorem C4_layout_offsets (sel : List SelAsset)
    (hok : ∀ a ∈ sel, a.isTexture = true → '_' ∈ a.path.data) :
    samplerCreations (applyLoop sel 0).fst =
      (List.range (sel.filter fun a => a.isTexture).length).map
        (fun i : Nat => Effect.createExpr .textureSample (-500) (250 * (i : Int))) ∧
    textureAssignments (applyLoop sel 0).fst =
      (sel.filter fun a => a.isTexture).map (fun a => Effect.setTexture a.path) := by
  constructor
  · rw [applyLoop_samplers sel hok 0]
    apply List.map_congr_left
    intro i _
    simp
  · exact applyLoop_assignments sel hok 0

/-- C4, witness: two textures separated by a non-texture get offsets 0 and
250. -/
theorem C4_witness :
    (∀ a ∈ ([⟨"T_X_D", true⟩, ⟨"SomeMesh", false⟩, ⟨"T_X_N", true⟩] : List SelAsset),
      a.isTexture = true → '_' ∈ a.path.data) ∧
    samplerCreations
        (applyLoop [⟨"T_X_D", true⟩, ⟨"SomeMesh", false⟩, ⟨"T_X_N", true⟩] 0).fst =
      [.createExpr .textureSample (-500) 0, .createExpr .textureSample (-500) 250] ∧
    textureAssignments
        (applyLoop [⟨"T_X_D", true⟩, ⟨"SomeMesh", false⟩, ⟨"T_X_N", true⟩] 0).fst =
      [.setTexture "T_X_D", .setTexture "T_X_N"] := by
  have h := C4_layout_offsets
    [⟨"T_X_D", true⟩, ⟨"SomeMesh", false⟩, ⟨"T_X_N", true⟩] (by decide)
  exact ⟨by decide, h.1.trans (by decide), h.2.trans (by decide)⟩

/-- C5, counterexample to the claim as stated: the suffix dictionary does
not have 8 keys — it has 9. -/
theorem C5_counterexample : actions.length = 9 ∧ ¬ actions.length = 8 := by
  decide

/-- C5, amended: the suffix dictionary has exactly 9 keys, namely
`DA, D, AO, A, N, M, R, S, E` in insertion order. -/
theorem C5_nine_keys :
    actions.length = 9 ∧
    actions.map Prod.fst = ["DA", "D", "AO", "A", "N", "M", "R", "S", "E"] := by
  decide

/-- C6: in the suffix table, key `D` maps exactly to connecting the
texture's RGB output to the material's base-color property, and key `DA`
maps to that connection plus connecting the A output to opacity and setting
the material's blend mode to translucent; keys are distinct, so these are
the unique bindings. -/
theorem C6_suffix_table_D_DA :
    (("D", [Action.createConnection "RGB" .baseColor]) ∈ actions) ∧
    (("DA", [Action.createConnection "RGB" .baseColor,
             .createConnection "A" .opacity,
             .setProperty "blend_mode" (.blend .translucent)]) ∈ actions) ∧
    (actions.map Prod.fst).Nodup := by
  decide

/-- C7: after the selection loop, `create_material_from_textures` performs
exactly three further effects, in order: recompile the material, save the
material asset, open an editor view for it — and the loop itself performs
none of these effect kinds. -/
theorem C7_finalization (name : String) (sel : List SelAsset) (db : AssetDB)
    (hslash : '/' ∈ (create_unique_asset_name name).fst.data)
    (hok : ∀ a ∈ sel, a.isTexture = true → '_' ∈ a.path.data) :
    ∃ mat db2,
      create_empty_material name db = some (mat, db2) ∧
      (create_material_from_textures name sel db).fst =
        (applyLoop sel 0).fst ++
          [.recompile mat, .saveAsset mat true, .openEditor [mat]] ∧
      finalizers (applyLoop sel 0).fst = [] := by
  have hcem : ∃ mat db2, create_empty_material name db = some (mat, db2) := by
    cases hex : does_asset_exist db (create_unique_asset_name name).fst with
    | true => exact ⟨_, _, create_empty_material_loads name db hex⟩
    | false => exact ⟨_, _, create_empty_material_creates name db hex hslash⟩
  obtain ⟨mat, db2, hcem⟩ := hcem
  refine ⟨mat, db2, hcem, ?_, finalizers_applyLoop sel 0⟩
  have herr : (applyLoop sel 0).snd = false := applyLoop_no_error sel hok 0
  rcases hl : applyLoop sel 0 with ⟨tr, err⟩
  rw [hl] at herr
  simp only at herr
  subst herr
  simp [create_material_from_textures, hcem, hl]

/-- C7, witness: one selected texture, fresh database. -/
theorem C7_witness :
    ('/' ∈ (create_unique_asset_name "/Game/Mat").fst.data) ∧
    (∀ a ∈ ([⟨"T_X_D", true⟩] : List SelAsset),
      a.isTexture = true → '_' ∈ a.path.data) ∧
    ∃ mat db2,
      create_empty_material "/Game/Mat" ⟨[]⟩ = some (mat, db2) ∧
      (create_material_from_textures "/Game/Mat" [⟨"T_X_D", true⟩] ⟨[]⟩).fst =
        (applyLoop [⟨"T_X_D", true⟩] 0).fst ++
          [.recompile mat, .saveAsset mat true, .openEditor [mat]] ∧
      finalizers (applyLoop [⟨"T_X_D", true⟩] 0).fst = [] :=
  ⟨by decide, by decide,
   C7_finalization "/Game/Mat" [⟨"T_X_D", true⟩] ⟨[]⟩ (by decide) (by decide)⟩

/-- C8: suffix-key matching is destructive: when a key matches, every
occurrence of its characters is removed (`pyReplaceAll`) from the working
suffix before later keys are tested; consequently no key fires twice in one
call (the matched keys are nodup for every suffix), and for suffix `DA`
only key `DA` fires — the full trace of `apply_texture("T_X_DA")` contains
exactly the `DA` actions and not those of keys `D` or `A`. -/
theorem C8_destructive_matching :
    (∀ (y : Int) (suf : List Char) (key : String) (acts : List Action)
       (rest : List (String × List Action)),
       matchTrace y suf ((key, acts) :: rest) =
         if key.data <:+: suf then
           (acts.flatMap fun a => a.execute y) ++
             matchTrace y (pyReplaceAll key.data suf) rest
         else matchTrace y suf rest) ∧
    (∀ suf : List Char, (matchedKeys suf actions).Nodup) ∧
    matchedKeys "DA".data actions = ["DA"] ∧
    (apply_texture "T_X_DA" 0).fst =
      [.createExpr .textureSample (-500) 0, .setTexture "T_X_DA",
       .connectProperty .sampler "RGB" .baseColor,
       .connectProperty .sampler "A" .opacity,
       .setMaterialProp "blend_mode" (.blend .translucent)] := by
  refine ⟨fun y suf key acts rest => rfl, fun suf => ?_, by decide, by decide⟩
  exact ((by decide : (actions.map Prod.fst).Nodup)).sublist
    (matchedKeys_sublist actions suf)

/-- C9: every `apply_texture` call creates the TextureSample node at
`(-500, y_pos)` and assigns its texture before any suffix matching; when
the suffix matches no key, those two effects are the entire trace, leaving
an unconnected TextureSample node. -/
theorem C9_sampler_created_first (name : String) (y : Int) :
    ((apply_texture name y).fst.take 2 =
      [.createExpr .textureSample (-500) y, .setTexture name]) ∧
    (∀ pre suf : String,
      pyRsplit1 '_' name = [pre, suf] →
      matchedKeys suf.data actions = [] →
      (apply_texture name y).fst =
        [.createExpr .textureSample (-500) y, .setTexture name]) := by
  constructor
  · rcases pyRsplit1_cases '_' name with ⟨h, _⟩ | ⟨a, b, h, _⟩
    · simp [apply_texture, h]
    · simp [apply_texture, h]
  · intro pre suf hsplit hnone
    simp only [apply_texture, hsplit]
    rw [matchTrace_eq_nil_of_no_match y actions suf.data hnone]
    simp

/-- C9, witness: `"T_X_Q"` has suffix `"Q"`, which matches no key, and its
trace is exactly the node creation and texture assignment. -/
theorem C9_witness :
    ((apply_texture "T_X_Q" 7).fst.take 2 =
      [.createExpr .textureSample (-500) 7, .setTexture "T_X_Q"]) ∧
    pyRsplit1 '_' "T_X_Q" = ["T_X", "Q"] ∧
    matchedKeys "Q".data actions = [] ∧
    (apply_texture "T_X_Q" 7).fst =
      [.createExpr .textureSample (-500) 7, .setTexture "T_X_Q"] :=
  ⟨(C9_sampler_created_first "T_X_Q" 7).1, by decide, by decide,
   (C9_sampler_created_first "T_X_Q" 7).2 "T_X" "Q" (by decide) (by decide)⟩

/-- C10: the selection loop of `create_material_from_textures` skips every
non-texture asset — it makes no `apply_texture` call for it and does not
advance the layout offset — so the loop's behaviour depends only on the
texture assets of the selection. -/
theorem C10_non_texture_assets_skipped (a : SelAsset) (sel : List SelAsset)
    (y : Int) (h : a.isTexture = false) :
    applyLoop (a :: sel) y = applyLoop sel y ∧
    applyLoop sel y = applyLoop (sel.filter fun x => x.isTexture) y :=
  ⟨applyLoop_cons_skip a sel y h, applyLoop_filter_textures sel y⟩

/-- C10, witness: a leading non-texture asset changes nothing. -/
theorem C10_witness :
    (SelAsset.mk "SomeMesh" false).isTexture = false ∧
    applyLoop [⟨"SomeMesh", false⟩, ⟨"T_X_D", true⟩] 0 =
      applyLoop [⟨"T_X_D", true⟩] 0 ∧
    applyLoop [⟨"T_X_D", true⟩] 0 =
      applyLoop (List.filter (fun x => x.isTexture) [⟨"T_X_D", true⟩]) 0 :=
  ⟨by decide,
   (C10_non_texture_assets_skipped ⟨"SomeMesh", false⟩ [⟨"T_X_D", true⟩] 0 (by decide)).1,
   (C10_non_texture_assets_skipped ⟨"SomeMesh", false⟩ [⟨"T_X_D", true⟩] 0 (by decide)).2⟩

end MaterialTools
